import Mathlib

/-!
Verification of the ledgerstats transaction-DAG statistics program.

The program (src/main.rs) parses a line-oriented database of transaction
records, builds a parent-to-children adjacency mapping, and computes three
statistics: average BFS depth from the root (id 1), average transactions per
non-zero depth, and average in-reference count.

Modelling conventions:
* `usize` values are modelled as `ℕ`; a parsed literal must fit below `2 ^ 64`
  exactly as Rust's `usize::from_str` requires on 64-bit targets.
* A Rust panic (out-of-bounds index, failed parse) is modelled as `none` of an
  `Option` result.
* `f64` results are modelled as `ℚ`; the one place the program can produce a
  `NaN` (dividing by a zero record count) is modelled as an inner `none`.
* Rust's `HashMap` is only ever read through `get` for the adjacency graph, so
  the graph is modelled as an association list with at most one entry per key;
  the per-depth accumulator map is also iterated (`values()`), whose order the
  Rust standard library leaves unspecified, so that iteration order is an
  explicit parameter.
-/

/-- One record of the database: `left`/`right` parent ids (0 = none) and a
timestamp label, mirroring `struct TransactionNode` in main.rs. -/
structure TransactionNode where
  left : ℕ
  right : ℕ
  timestamp : ℕ
deriving DecidableEq, Repr

/-! ### Parser (`parse_database`) -/

/-- Characters Rust's `split_whitespace` splits on (restricted to the ASCII
whitespace actually occurring in line-oriented input). -/
def isWS (c : Char) : Bool := c.isWhitespace

/-- Accumulating splitter over the character list; `cur` holds the current
token reversed. -/
def splitWSAux : List Char → List Char → List (List Char)
  | [], cur => if cur = [] then [] else [cur.reverse]
  | c :: rest, cur =>
    if isWS c then
      if cur = [] then splitWSAux rest [] else cur.reverse :: splitWSAux rest []
    else
      splitWSAux rest (c :: cur)

/-- Model of Rust's `str::split_whitespace` collected to a list. -/
def splitWhitespace (s : String) : List String :=
  (splitWSAux s.toList []).map String.mk

/-- Value of an ASCII decimal digit. -/
def digitVal (c : Char) : Option ℕ :=
  if '0' ≤ c ∧ c ≤ '9' then some (c.toNat - '0'.toNat) else none

/-- Left fold accumulating decimal digits; fails on a non-digit. -/
def parseDigits : List Char → ℕ → Option ℕ
  | [], acc => some acc
  | c :: rest, acc =>
    match digitVal c with
    | none => none
    | some d => parseDigits rest (acc * 10 + d)

/-- Model of `str::parse::<usize>()`: optional leading `+`, at least one ASCII
digit, and the value must fit in 64 bits (Rust errors on overflow). -/
def parseUsize (s : String) : Option ℕ :=
  let cs :=
    match s.toList with
    | '+' :: rest => rest
    | cs => cs
  if cs = [] then none
  else
    match parseDigits cs 0 with
    | none => none
    | some v => if v < 2 ^ 64 then some v else none

/-- Fallible map over a list, aborting at the first failure, mirroring
`.map(..).collect::<Vec<_>>()` with panicking closures. -/
def mapOption (f : α → Option β) : List α → Option (List β)
  | [] => some []
  | x :: xs =>
    match f x with
    | none => none
    | some y => (mapOption f xs).map (fun ys => y :: ys)

/-- Parse one data line: split into whitespace tokens, parse every token as a
non-negative integer (panicking — `none` — on failure), then require exactly
three parts, in the order main.rs performs these steps. -/
def parseLine (line : String) : Option TransactionNode :=
  match mapOption parseUsize (splitWhitespace line) with
  | none => none
  | some parts =>
    match parts with
    | [l, r, t] => some ⟨l, r, t⟩
    | _ => none

/-- Model of `parse_database`: the first line (header) is skipped, every later
line is parsed; the first failure aborts the whole run with no records. -/
def parse_database (lines : List String) : Option (List TransactionNode) :=
  mapOption parseLine (lines.drop 1)

/-! ### Graph builder (`build_graph`) -/

/-- The adjacency mapping: association list from parent id to its ordered
child list. The Rust code only reads it through `HashMap::get`, and `entry`
keeps at most one entry per key. -/
def Graph : Type := List (ℕ × List ℕ)

/-- Model of `graph.get(&k)`. -/
def getG (g : Graph) (k : ℕ) : Option (List ℕ) :=
  (List.find? (fun e => e.1 = k) g).map Prod.snd

/-- Child list of `k`, with a missing key read as the empty list (the Rust
code treats `get == None` exactly like an empty neighbour list). -/
def childrenOf (g : Graph) (k : ℕ) : List ℕ :=
  (getG g k).getD []

/-- Model of `graph.entry(p).or_insert(Vec::new()).push(c)`. -/
def pushChild (g : Graph) (p c : ℕ) : Graph :=
  match g with
  | [] => [(p, [c])]
  | (k, l) :: rest =>
    if k = p then (k, l ++ [c]) :: rest else (k, l) :: pushChild rest p c

/-- Loop body of `build_graph` over the records, carrying the 0-based index of
the record at the list head. -/
def buildGraphAux : List TransactionNode → ℕ → Graph → Graph
  | [], _, g => g
  | nd :: rest, idx, g =>
    let cur := idx + 1
    let g1 := if nd.left > 0 then pushChild g nd.left cur else g
    let g2 := if nd.right > 0 then pushChild g1 nd.right cur else g1
    buildGraphAux rest (idx + 1) g2

/-- Model of `build_graph`: node ids are 1-based positions; for each record the
left edge is inserted before the right edge, in input order. -/
def build_graph (nodes : List TransactionNode) : Graph :=
  buildGraphAux nodes 0 []

/-- Specification-side description of a child list (spec §4.2): scanning the
records in order from 0-based offset `idx`, a record with `left = p > 0`
appends its id, then one with `right = p > 0` appends its id. -/
def childListSpec : List TransactionNode → ℕ → ℕ → List ℕ
  | [], _, _ => []
  | nd :: rest, idx, p =>
    ((if nd.left = p ∧ 0 < p then [idx + 1] else []) ++
      (if nd.right = p ∧ 0 < p then [idx + 1] else [])) ++
      childListSpec rest (idx + 1) p

theorem getG_cons (k : ℕ) (l : List ℕ) (g : List (ℕ × List ℕ)) (q : ℕ) :
    getG ((k, l) :: g) q = if k = q then some l else getG g q := by
  by_cases h : k = q <;> simp [getG, List.find?, h]

theorem childrenOf_cons (k : ℕ) (l : List ℕ) (g : List (ℕ × List ℕ)) (q : ℕ) :
    childrenOf ((k, l) :: g) q = if k = q then l else childrenOf g q := by
  by_cases h : k = q <;> simp [childrenOf, getG_cons, h]

theorem childrenOf_nil (q : ℕ) : childrenOf ([] : Graph) q = [] := rfl

theorem childrenOf_pushChild (g : Graph) (p c q : ℕ) :
    childrenOf (pushChild g p c) q =
      if q = p then childrenOf g q ++ [c] else childrenOf g q := by
  induction g with
  | nil =>
    by_cases h : q = p
    · subst h; simp [pushChild, childrenOf_cons, childrenOf_nil]
    · have h' : ¬ p = q := fun hpq => h hpq.symm
      simp [pushChild, childrenOf_cons, childrenOf_nil, h, h']
  | cons e rest ih =>
    obtain ⟨k, l⟩ := e
    by_cases hkp : k = p
    · subst hkp
      by_cases hq : k = q
      · subst hq
        simp [pushChild, childrenOf_cons]
      · have hq' : ¬ q = k := fun h => hq h.symm
        simp [pushChild, childrenOf_cons, hq, hq']
    · by_cases hq : k = q
      · subst hq
        have hkp' : ¬ k = p := hkp
        simp [pushChild, hkp', childrenOf_cons, if_neg hkp']
      · simp only [pushChild, if_neg hkp, childrenOf_cons, if_neg hq]
        exact ih

theorem childrenOf_ifPushChild (g : Graph) (a c p : ℕ) :
    childrenOf (if a > 0 then pushChild g a c else g) p =
      childrenOf g p ++ (if a = p ∧ 0 < p then [c] else []) := by
  by_cases ha : a > 0
  · rw [if_pos ha, childrenOf_pushChild]
    by_cases hap : p = a
    · subst hap
      rw [if_pos rfl, if_pos ⟨rfl, ha⟩]
    · rw [if_neg hap, if_neg (fun h => hap h.1.symm)]
      simp
  · rw [if_neg ha, if_neg (by intro h; omega)]
    simp

theorem childrenOf_buildGraphAux (nodes : List TransactionNode) (idx : ℕ)
    (g : Graph) (p : ℕ) :
    childrenOf (buildGraphAux nodes idx g) p =
      childrenOf g p ++ childListSpec nodes idx p := by
  induction nodes generalizing idx g with
  | nil => simp [buildGraphAux, childListSpec]
  | cons nd rest ih =>
    simp only [buildGraphAux, childListSpec]
    rw [ih, childrenOf_ifPushChild, childrenOf_ifPushChild]
    simp [List.append_assoc]

theorem childrenOf_build_graph (nodes : List TransactionNode) (p : ℕ) :
    childrenOf (build_graph nodes) p = childListSpec nodes 0 p := by
  have h := childrenOf_buildGraphAux nodes 0 [] p
  simpa [build_graph, childrenOf, getG] using h

/-! ### Average depth (`calculate_average_depth`) -/

/-- Every node the BFS can ever enqueue: the root 1 together with every key and
every child occurring in the adjacency mapping. Used to bound the traversal. -/
def candSet (g : Graph) : Finset ℕ :=
  insert 1 ((g.map Prod.fst ++ g.flatMap Prod.snd).toFinset)

theorem mem_candSet_of_key (g : Graph) (node : ℕ) (l : List ℕ)
    (h : getG g node = some l) : node ∈ candSet g := by
  simp only [getG, Option.map_eq_some'] at h
  obtain ⟨e, he, hsnd⟩ := h
  have hm := List.mem_of_find?_eq_some he
  have hk := List.find?_some he
  simp only [decide_eq_true_eq] at hk
  simp only [candSet, Finset.mem_insert, List.mem_toFinset, List.mem_append,
    List.mem_map]
  right; left
  exact ⟨e, hm, hk⟩

theorem getG_eq_none_of_not_mem_candSet (g : Graph) (node : ℕ)
    (h : node ∉ candSet g) : getG g node = none := by
  by_contra hne
  obtain ⟨l, hl⟩ := Option.ne_none_iff_exists'.mp hne
  exact h (mem_candSet_of_key g node l hl)

theorem childrenOf_eq_nil_of_not_mem_candSet (g : Graph) (node : ℕ)
    (h : node ∉ candSet g) : childrenOf g node = [] := by
  simp [childrenOf, getG_eq_none_of_not_mem_candSet g node h]

theorem mem_candSet_of_child (g : Graph) (node c : ℕ)
    (h : c ∈ childrenOf g node) : c ∈ candSet g := by
  simp only [childrenOf] at h
  cases hg : getG g node with
  | none => rw [hg] at h; simp at h
  | some l =>
    rw [hg] at h
    simp only [Option.getD_some] at h
    simp only [getG, Option.map_eq_some'] at hg
    obtain ⟨e, he, hsnd⟩ := hg
    have hm := List.mem_of_find?_eq_some he
    simp only [candSet, Finset.mem_insert, List.mem_toFinset, List.mem_append]
    right; right
    simp only [List.mem_flatMap]
    exact ⟨e, hm, hsnd ▸ h⟩

/-- The BFS loop of `calculate_average_depth`: a FIFO queue of
`(node, depth)` pairs and a visited set. The returned list is the sequence of
`(node, depth)` pairs actually processed (first dequeue wins); main.rs folds
`depth` into `total_depth` and counts `num_nodes` over exactly this sequence.
A child is enqueued only if not in the visited set at enqueue time, exactly as
`!visited.contains(&neighbor)` after `visited.insert(node)`. -/
def bfsAux (g : Graph) (queue : List (ℕ × ℕ)) (visited : Finset ℕ) :
    List (ℕ × ℕ) :=
  match queue with
  | [] => []
  | (node, d) :: rest =>
    if node ∈ visited then
      bfsAux g rest visited
    else
      (node, d) ::
        bfsAux g
          (rest ++ ((childrenOf g node).filter
              (fun c => c ∉ insert node visited)).map (fun c => (c, d + 1)))
          (insert node visited)
termination_by ((candSet g \ visited).card, queue.length)
decreasing_by
· apply Prod.Lex.right
  simp
· by_cases hc : node ∈ candSet g
  · apply Prod.Lex.left
    apply Finset.card_lt_card
    apply Finset.ssubset_iff_of_subset
      (Finset.sdiff_subset_sdiff (Finset.Subset.refl _)
        (Finset.subset_insert node visited)) |>.mpr
    refine ⟨node, ?_, ?_⟩
    · simp [Finset.mem_sdiff, hc, *]
    · simp
  · have hnil : childrenOf g node = [] :=
      childrenOf_eq_nil_of_not_mem_candSet g node hc
    have hcard : candSet g \ insert node visited = candSet g \ visited := by
      ext x
      simp only [Finset.mem_sdiff, Finset.mem_insert, not_or]
      constructor
      · rintro ⟨hx, _, h2⟩
        exact ⟨hx, h2⟩
      · rintro ⟨hx, h2⟩
        exact ⟨hx, fun he => hc (he ▸ hx), h2⟩
    rw [hcard, hnil]
    apply Prod.Lex.right
    simp

/-- The `(node, depth)` pairs processed by the BFS of
`calculate_average_depth`, seeded with `(1, 0)` and an empty visited set. -/
def bfsVisited (g : Graph) : List (ℕ × ℕ) := bfsAux g [(1, 0)] ∅

/-- Model of `calculate_average_depth`: sum of the processed depths divided by
the number of processed nodes, with the `num_nodes > 0` guard returning 0. -/
def calculate_average_depth (g : Graph) : ℚ :=
  if 0 < (bfsVisited g).length then
    (((bfsVisited g).map Prod.snd).sum : ℚ) / ((bfsVisited g).length : ℚ)
  else 0

/-- Reachability from the root (id 1) along the parent-to-children adjacency,
the specification's notion of a node the BFS should count. -/
inductive Reachable (g : Graph) : ℕ → Prop where
  | root : Reachable g 1
  | step {p c : ℕ} : Reachable g p → c ∈ childrenOf g p → Reachable g c

theorem bfs_mem_not_visited (g : Graph) (queue : List (ℕ × ℕ))
    (visited : Finset ℕ) :
    ∀ x ∈ bfsAux g queue visited, x.1 ∉ visited := by
  induction queue, visited using bfsAux.induct g with
  | case1 visited => simp [bfsAux]
  | case2 visited node d rest hv ih =>
    rw [bfsAux, if_pos hv]
    exact ih
  | case3 visited node d rest hv ih =>
    rw [bfsAux, if_neg hv]
    intro x hx
    rcases List.mem_cons.mp hx with rfl | hx'
    · exact hv
    · intro hxv
      exact ih x hx' (Finset.mem_insert_of_mem hxv)

theorem bfs_nodup (g : Graph) (queue : List (ℕ × ℕ)) (visited : Finset ℕ) :
    ((bfsAux g queue visited).map Prod.fst).Nodup := by
  induction queue, visited using bfsAux.induct g with
  | case1 visited => simp [bfsAux]
  | case2 visited node d rest hv ih =>
    rw [bfsAux, if_pos hv]
    exact ih
  | case3 visited node d rest hv ih =>
    rw [bfsAux, if_neg hv]
    simp only [List.map_cons, List.nodup_cons]
    refine ⟨?_, ih⟩
    intro hmem
    obtain ⟨x, hx, hx1⟩ := List.mem_map.mp hmem
    exact bfs_mem_not_visited g _ _ x hx (hx1 ▸ Finset.mem_insert_self node visited)

theorem bfs_queue_processed (g : Graph) (queue : List (ℕ × ℕ))
    (visited : Finset ℕ) :
    ∀ x ∈ queue, x.1 ∈ visited ∨ x.1 ∈ (bfsAux g queue visited).map Prod.fst := by
  induction queue, visited using bfsAux.induct g with
  | case1 visited => simp
  | case2 visited node d rest hv ih =>
    rw [bfsAux, if_pos hv]
    intro x hx
    rcases List.mem_cons.mp hx with rfl | hx'
    · exact Or.inl hv
    · exact ih x hx'
  | case3 visited node d rest hv ih =>
    rw [bfsAux, if_neg hv]
    intro x hx
    rcases List.mem_cons.mp hx with rfl | hx'
    · right
      simp
    · have hx2 : x ∈ rest ++ ((childrenOf g node).filter
          (fun c => c ∉ insert node visited)).map (fun c => (c, d + 1)) :=
        List.mem_append_left _ hx'
      rcases ih x hx2 with hvm | hm
      · rcases Finset.mem_insert.mp hvm with he | hvv
        · right
          simp [he]
        · exact Or.inl hvv
      · right
        simp only [List.map_cons, List.mem_cons]
        exact Or.inr hm

theorem bfs_children_processed (g : Graph) (queue : List (ℕ × ℕ))
    (visited : Finset ℕ) :
    ∀ p ∈ bfsAux g queue visited, ∀ c ∈ childrenOf g p.1,
      c ∈ visited ∨ c ∈ (bfsAux g queue visited).map Prod.fst := by
  induction queue, visited using bfsAux.induct g with
  | case1 visited => simp [bfsAux]
  | case2 visited node d rest hv ih =>
    rw [bfsAux, if_pos hv]
    exact ih
  | case3 visited node d rest hv ih =>
    rw [bfsAux, if_neg hv]
    intro p hp c hc
    rcases List.mem_cons.mp hp with rfl | hp'
    · by_cases hcv : c ∈ insert node visited
      · rcases Finset.mem_insert.mp hcv with he | hvv
        · right
          simp [he]
        · exact Or.inl hvv
      · have hcq : (c, d + 1) ∈ rest ++ ((childrenOf g node).filter
            (fun x => x ∉ insert node visited)).map (fun x => (x, d + 1)) := by
          apply List.mem_append_right
          apply List.mem_map.mpr
          refine ⟨c, ?_, rfl⟩
          apply List.mem_filter.mpr
          exact ⟨hc, by simpa using hcv⟩
        rcases bfs_queue_processed g _ _ (c, d + 1) hcq with hvm | hm
        · exact absurd hvm hcv
        · right
          simp only [List.map_cons, List.mem_cons]
          exact Or.inr hm
    · rcases ih p hp' c hc with hvm | hm
      · rcases Finset.mem_insert.mp hvm with he | hvv
        · right
          simp [he]
        · exact Or.inl hvv
      · right
        simp only [List.map_cons, List.mem_cons]
        exact Or.inr hm

theorem bfs_sound (g : Graph) (queue : List (ℕ × ℕ)) (visited : Finset ℕ)
    (hq : ∀ x ∈ queue, Reachable g x.1) :
    ∀ p ∈ bfsAux g queue visited, Reachable g p.1 := by
  induction queue, visited using bfsAux.induct g with
  | case1 visited => simp [bfsAux]
  | case2 visited node d rest hv ih =>
    rw [bfsAux, if_pos hv]
    exact ih (fun x hx => hq x (List.mem_cons_of_mem _ hx))
  | case3 visited node d rest hv ih =>
    rw [bfsAux, if_neg hv]
    have hroot : Reachable g node := hq (node, d) (List.mem_cons_self _ _)
    intro p hp
    rcases List.mem_cons.mp hp with rfl | hp'
    · exact hroot
    · refine ih ?_ p hp'
      intro x hx
      rcases List.mem_append.mp hx with hx1 | hx2
      · exact hq x (List.mem_cons_of_mem _ hx1)
      · obtain ⟨c, hcf, rfl⟩ := List.mem_map.mp hx2
        exact Reachable.step hroot (List.mem_filter.mp hcf).1

theorem bfs_in_candSet (g : Graph) (queue : List (ℕ × ℕ)) (visited : Finset ℕ)
    (hq : ∀ x ∈ queue, x.1 ∈ candSet g) :
    ∀ p ∈ bfsAux g queue visited, p.1 ∈ candSet g := by
  induction queue, visited using bfsAux.induct g with
  | case1 visited => simp [bfsAux]
  | case2 visited node d rest hv ih =>
    rw [bfsAux, if_pos hv]
    exact ih (fun x hx => hq x (List.mem_cons_of_mem _ hx))
  | case3 visited node d rest hv ih =>
    rw [bfsAux, if_neg hv]
    have hnode : node ∈ candSet g := hq (node, d) (List.mem_cons_self _ _)
    intro p hp
    rcases List.mem_cons.mp hp with rfl | hp'
    · exact hnode
    · refine ih ?_ p hp'
      intro x hx
      rcases List.mem_append.mp hx with hx1 | hx2
      · exact hq x (List.mem_cons_of_mem _ hx1)
      · obtain ⟨c, hcf, rfl⟩ := List.mem_map.mp hx2
        exact mem_candSet_of_child g node c (List.mem_filter.mp hcf).1

theorem processed_of_reachable (g : Graph) (v : ℕ) (h : Reachable g v) :
    v ∈ (bfsVisited g).map Prod.fst := by
  induction h with
  | root =>
    rcases bfs_queue_processed g [(1, 0)] ∅ (1, 0) (by simp) with h0 | h1
    · simp at h0
    · exact h1
  | step hp hc ih =>
    obtain ⟨x, hx, hfst⟩ := List.mem_map.mp ih
    rcases bfs_children_processed g [(1, 0)] ∅ x hx _ (hfst ▸ hc) with h0 | h1
    · simp at h0
    · exact h1

theorem reachable_of_processed (g : Graph) (v : ℕ)
    (h : v ∈ (bfsVisited g).map Prod.fst) : Reachable g v := by
  obtain ⟨x, hx, hfst⟩ := List.mem_map.mp h
  have := bfs_sound g [(1, 0)] ∅ ?_ x hx
  · exact hfst ▸ this
  · intro y hy
    rcases List.mem_cons.mp hy with rfl | hy'
    · exact Reachable.root
    · simp at hy'

theorem bfsVisited_eq_cons (g : Graph) :
    ∃ rest, bfsVisited g = (1, 0) :: rest := by
  rw [bfsVisited, bfsAux]
  simp only [Finset.not_mem_empty, if_false, List.nil_append]
  exact ⟨_, rfl⟩

theorem bfsVisited_of_no_edges (g : Graph) (h : ∀ p, childrenOf g p = []) :
    bfsVisited g = [(1, 0)] := by
  rw [bfsVisited, bfsAux]
  simp only [Finset.not_mem_empty, if_false, h, List.filter_nil, List.map_nil,
    List.nil_append]
  rw [bfsAux]

theorem avg_depth_of_no_edges (g : Graph) (h : ∀ p, childrenOf g p = []) :
    calculate_average_depth g = 0 ∧ (bfsVisited g).length = 1 := by
  rw [calculate_average_depth, bfsVisited_of_no_edges g h]
  norm_num

theorem build_graph_nil : build_graph ([] : List TransactionNode) = [] := rfl

theorem buildGraphAux_append (xs ys : List TransactionNode) (idx : ℕ)
    (g : Graph) :
    buildGraphAux (xs ++ ys) idx g =
      buildGraphAux ys (idx + xs.length) (buildGraphAux xs idx g) := by
  induction xs generalizing idx g with
  | nil => simp [buildGraphAux]
  | cons nd rest ih =>
    simp only [List.cons_append, buildGraphAux, List.append_eq]
    rw [ih]
    congr 1
    simp only [List.length_cons]
    omega

theorem build_graph_append_orphan (nodes : List TransactionNode)
    (orphan : TransactionNode) (hl : orphan.left = 0) (hr : orphan.right = 0) :
    build_graph (nodes ++ [orphan]) = build_graph nodes := by
  rw [build_graph, buildGraphAux_append]
  simp [buildGraphAux, hl, hr, build_graph]

theorem childListSpec_mem_bounds (nodes : List TransactionNode) (idx p c : ℕ)
    (h : c ∈ childListSpec nodes idx p) :
    idx + 1 ≤ c ∧ c ≤ idx + nodes.length := by
  induction nodes generalizing idx with
  | nil => simp [childListSpec] at h
  | cons nd rest ih =>
    simp only [childListSpec, List.append_assoc, List.mem_append] at h
    rcases h with h1 | h1 | h2
    · split at h1
      · simp at h1
        simp [h1, List.length_cons]
      · simp at h1
    · split at h1
      · simp at h1
        simp [h1, List.length_cons]
      · simp at h1
    · have := ih (idx + 1) h2
      simp only [List.length_cons]
      omega

theorem childrenOf_build_graph_bounds (nodes : List TransactionNode) (p c : ℕ)
    (h : c ∈ childrenOf (build_graph nodes) p) :
    1 ≤ c ∧ c ≤ nodes.length := by
  rw [childrenOf_build_graph] at h
  have := childListSpec_mem_bounds nodes 0 p c h
  omega

theorem not_reachable_orphan (nodes : List TransactionNode)
    (hne : nodes ≠ []) :
    ¬ Reachable (build_graph nodes) (nodes.length + 1) := by
  intro h
  have key : ∀ v, Reachable (build_graph nodes) v → v ≠ nodes.length + 1 := by
    intro v hv
    cases hv with
    | root =>
      intro he
      have hz : nodes.length = 0 := by omega
      exact hne (List.length_eq_zero.mp hz)
    | step hp hc =>
      intro he
      have := childrenOf_build_graph_bounds nodes _ _ hc
      omega
  exact key _ h rfl

/-! ### Average in-references (`calculate_average_in_references`) -/

/-- Model of `in_reference_counts[i] += 1` with the Rust bounds check: `none`
when the index is outside the counter array (a panic). -/
def incrAt (l : List ℕ) (i : ℕ) : Option (List ℕ) :=
  match l[i]? with
  | none => none
  | some v => some (l.set i (v + 1))

/-- Inner loop of `calculate_average_in_references`: for every referencing
node in one child list, increment its counter at index `c - 1`; a child id 0
would make `c - 1` underflow (a panic either way in Rust), modelled as
`none`. -/
def inRefFold : List ℕ → List ℕ → Option (List ℕ)
  | counts, [] => some counts
  | counts, c :: rest =>
    if c = 0 then none
    else
      match incrAt counts (c - 1) with
      | none => none
      | some counts2 => inRefFold counts2 rest

/-- Outer loop of `calculate_average_in_references` over the 0-based record
indices, looking up the child list of id `i + 1`. -/
def inRefLoop (g : Graph) : List ℕ → List ℕ → Option (List ℕ)
  | counts, [] => some counts
  | counts, i :: rest =>
    match getG g (i + 1) with
    | none => inRefLoop g counts rest
    | some children =>
      match inRefFold counts children with
      | none => none
      | some counts2 => inRefLoop g counts2 rest

/-- The in-reference counter array of size `n` after both loops. -/
def inRefCounts (g : Graph) (n : ℕ) : Option (List ℕ) :=
  inRefLoop g (List.replicate n 0) (List.range n)

/-- Model of `calculate_average_in_references`: sum of the counters divided by
the record count. The outer `Option` is a panic; the inner `Option` is the
`f64` value, with `none` standing for the `NaN` produced by `0.0 / 0.0` when
the record list is empty (the division has no guard in main.rs). -/
def calculate_average_in_references (nodes : List TransactionNode)
    (g : Graph) : Option (Option ℚ) :=
  match inRefCounts g nodes.length with
  | none => none
  | some counts =>
    if nodes.length = 0 then some none
    else some (some ((counts.sum : ℚ) / (nodes.length : ℚ)))

/-- Number of adjacency edges whose source id lies in `1..=n`: the spec-side
value the average in-reference metric is claimed to compute. -/
def totalEdges (g : Graph) (n : ℕ) : ℕ :=
  ((List.range n).map (fun i => (childrenOf g (i + 1)).length)).sum

/-- The chain family of records: record `i + 1` has `left_parent = i` and
`right_parent = 0` (record 1 is the root with no parents). -/
def chainNodes (n : ℕ) : List TransactionNode :=
  (List.range n).map (fun i => ⟨i, 0, 0⟩)

theorem incrAt_spec (l : List ℕ) (i : ℕ) (h : i < l.length) :
    ∃ l2, incrAt l i = some l2 ∧ l2.length = l.length ∧
      l2.sum = l.sum + 1 := by
  induction l generalizing i with
  | nil => simp at h
  | cons x xs ih =>
    cases i with
    | zero =>
      refine ⟨(x + 1) :: xs, ?_, by simp, by simp; omega⟩
      simp [incrAt]
    | succ j =>
      have hj : j < xs.length := by simpa using h
      obtain ⟨l2, he, hlen, hsum⟩ := ih j hj
      simp only [incrAt] at he ⊢
      cases hx : xs[j]? with
      | none =>
        rw [hx] at he
        simp at he
      | some v =>
        rw [hx] at he
        simp only [Option.some.injEq] at he
        simp only [List.getElem?_cons_succ, hx, List.set_cons_succ]
        refine ⟨x :: xs.set j (v + 1), rfl, by simp, ?_⟩
        have : (xs.set j (v + 1)).sum = xs.sum + 1 := by
          rw [he]
          exact hsum
        simp [this]
        omega

theorem inRefFold_spec (n : ℕ) (children : List ℕ) :
    ∀ counts : List ℕ, counts.length = n →
      (∀ c ∈ children, 1 ≤ c ∧ c ≤ n) →
      ∃ counts2, inRefFold counts children = some counts2 ∧
        counts2.length = n ∧ counts2.sum = counts.sum + children.length := by
  induction children with
  | nil =>
    intro counts hlen _
    exact ⟨counts, rfl, hlen, by simp⟩
  | cons c rest ih =>
    intro counts hlen hb
    have hc := hb c (List.mem_cons_self _ _)
    have hne : ¬ c = 0 := by omega
    have hidx : c - 1 < counts.length := by omega
    obtain ⟨l2, he, hlen2, hsum2⟩ := incrAt_spec counts (c - 1) hidx
    obtain ⟨counts2, he2, hlen3, hsum3⟩ :=
      ih l2 (by rw [hlen2, hlen]) (fun x hx => hb x (List.mem_cons_of_mem _ hx))
    refine ⟨counts2, ?_, hlen3, ?_⟩
    · simp only [inRefFold, if_neg hne, he]
      exact he2
    · rw [hsum3, hsum2]
      simp
      omega

theorem inRefLoop_spec (g : Graph) (n : ℕ) (is : List ℕ) :
    ∀ counts : List ℕ, counts.length = n →
      (∀ i ∈ is, ∀ c ∈ childrenOf g (i + 1), 1 ≤ c ∧ c ≤ n) →
      ∃ counts2, inRefLoop g counts is = some counts2 ∧
        counts2.length = n ∧
        counts2.sum = counts.sum +
          (is.map (fun i => (childrenOf g (i + 1)).length)).sum := by
  induction is with
  | nil =>
    intro counts hlen _
    exact ⟨counts, rfl, hlen, by simp⟩
  | cons i rest ih =>
    intro counts hlen hb
    cases hg : getG g (i + 1) with
    | none =>
      obtain ⟨counts2, he, hlen2, hsum2⟩ :=
        ih counts hlen (fun j hj => hb j (List.mem_cons_of_mem _ hj))
      refine ⟨counts2, ?_, hlen2, ?_⟩
      · simp only [inRefLoop, hg]
        exact he
      · have hch : childrenOf g (i + 1) = [] := by
          simp [childrenOf, hg]
        rw [hsum2]
        simp [hch]
    | some children =>
      have hch : childrenOf g (i + 1) = children := by
        simp [childrenOf, hg]
      obtain ⟨l2, he, hlen2, hsum2⟩ :=
        inRefFold_spec n children counts hlen
          (fun c hc => hb i (List.mem_cons_self _ _) c (hch ▸ hc))
      obtain ⟨counts2, he2, hlen3, hsum3⟩ :=
        ih l2 hlen2 (fun j hj => hb j (List.mem_cons_of_mem _ hj))
      refine ⟨counts2, ?_, hlen3, ?_⟩
      · simp only [inRefLoop, hg, he]
        exact he2
      · rw [hsum3, hsum2]
        simp only [List.map_cons, List.sum_cons, hch]
        omega

theorem inRefCounts_build_graph (nodes : List TransactionNode) :
    ∃ counts, inRefCounts (build_graph nodes) nodes.length = some counts ∧
      counts.length = nodes.length ∧
      counts.sum = totalEdges (build_graph nodes) nodes.length := by
  obtain ⟨counts, he, hlen, hsum⟩ :=
    inRefLoop_spec (build_graph nodes) nodes.length (List.range nodes.length)
      (List.replicate nodes.length 0) (by simp)
      (fun i _ c hc => childrenOf_build_graph_bounds nodes (i + 1) c hc)
  refine ⟨counts, he, hlen, ?_⟩
  rw [hsum]
  simp [totalEdges]

theorem childListSpec_chain (k : ℕ) :
    ∀ s p : ℕ,
      childListSpec ((List.range' s k).map (fun i => ⟨i, 0, 0⟩)) s p =
        if 1 ≤ p ∧ s ≤ p ∧ p < s + k then [p + 1] else [] := by
  induction k with
  | zero =>
    intro s p
    rw [if_neg (by omega)]
    rfl
  | succ m ih =>
    intro s p
    rw [List.range'_succ]
    simp only [List.map_cons, childListSpec]
    rw [ih (s + 1) p]
    by_cases hp : s = p ∧ 0 < p
    · obtain ⟨rfl, hp2⟩ := hp
      rw [if_pos ⟨rfl, hp2⟩, if_neg (by omega), if_neg (by omega),
        if_pos (by omega)]
      simp
    · rw [if_neg hp, if_neg (by omega)]
      by_cases hcond : 1 ≤ p ∧ s + 1 ≤ p ∧ p < s + 1 + m
      · rw [if_pos hcond, if_pos (by omega)]
        simp
      · rw [if_neg hcond, if_neg (by omega)]
        simp

theorem chain_children (n p : ℕ) :
    childrenOf (build_graph (chainNodes n)) p =
      if 1 ≤ p ∧ p < n then [p + 1] else [] := by
  rw [childrenOf_build_graph]
  have hch : chainNodes n =
      (List.range' 0 n).map (fun i => ⟨i, 0, 0⟩) := by
    rw [chainNodes, List.range_eq_range']
  rw [hch, childListSpec_chain n 0 p]
  by_cases h : 1 ≤ p ∧ p < n
  · rw [if_pos (by omega), if_pos h]
  · rw [if_neg (by omega), if_neg h]

theorem sum_chain_indicator (n : ℕ) :
    ((List.range n).map (fun i => if i + 2 ≤ n then (1 : ℕ) else 0)).sum =
      n - 1 := by
  cases n with
  | zero => rfl
  | succ m =>
    rw [List.range_succ]
    simp only [List.map_append, List.sum_append, List.map_cons, List.map_nil,
      List.sum_cons, List.sum_nil]
    rw [if_neg (by omega)]
    have hconst : (List.range m).map
        (fun i => if i + 2 ≤ m + 1 then (1 : ℕ) else 0) =
        (List.range m).map (fun _ => 1) := by
      apply List.map_congr_left
      intro i hi
      have := List.mem_range.mp hi
      rw [if_pos (by omega)]
    rw [hconst]
    have hones : ∀ l : List ℕ, (l.map (fun _ => (1 : ℕ))).sum = l.length := by
      intro l
      induction l with
      | nil => rfl
      | cons x xs ih => simp [ih]; omega
    rw [hones]
    simp

theorem chain_total_edges (n : ℕ) :
    totalEdges (build_graph (chainNodes n)) n = n - 1 := by
  rw [totalEdges]
  have hmap : (List.range n).map
      (fun i => (childrenOf (build_graph (chainNodes n)) (i + 1)).length) =
      (List.range n).map (fun i => if i + 2 ≤ n then 1 else 0) := by
    apply List.map_congr_left
    intro i _
    rw [chain_children]
    by_cases h : i + 2 ≤ n
    · rw [if_pos (by omega), if_pos h]
      rfl
    · rw [if_neg (by omega), if_neg h]
      rfl
  rw [hmap, sum_chain_indicator]

theorem in_refs_formula (nodes : List TransactionNode) (h : nodes ≠ []) :
    calculate_average_in_references nodes (build_graph nodes) =
      some (some ((totalEdges (build_graph nodes) nodes.length : ℚ) /
        (nodes.length : ℚ))) := by
  obtain ⟨counts, he, _, hsum⟩ := inRefCounts_build_graph nodes
  have hlen : nodes.length ≠ 0 := fun h0 => h (List.length_eq_zero.mp h0)
  simp only [calculate_average_in_references, he, if_neg hlen, hsum]

theorem chainNodes_length (n : ℕ) : (chainNodes n).length = n := by
  simp [chainNodes]

theorem chainNodes_ne_nil (n : ℕ) (h : 0 < n) : chainNodes n ≠ [] := by
  intro he
  have := chainNodes_length n
  rw [he] at this
  simp at this
  omega

/-! ### Average transactions per depth (`calculate_average_txs_per_depth`) -/

/-- Model of `count_transactions_at_depth`: how many records of the whole
input have `timestamp == depth`. -/
def count_transactions_at_depth (nodes : List TransactionNode)
    (depth : ℕ) : ℕ :=
  (nodes.filter (fun nd => nd.timestamp = depth)).length

/-- Model of `*depth_txs.entry(depth).or_insert(0) += tx_count` on the
accumulator kept as an association list in key-insertion order. -/
def bumpEntry : List (ℕ × ℕ) → ℕ → ℕ → List (ℕ × ℕ)
  | [], d, k => [(d, k)]
  | (d2, v) :: rest, d, k =>
    if d2 = d then (d2, v + k) :: rest else (d2, v) :: bumpEntry rest d k

/-- The neighbour loop `if !visited[neighbor]`: collect unvisited children,
`none` when an index is outside the visited vector (a panic). -/
def filterUnvisited (vis : List Bool) : List ℕ → Option (List ℕ)
  | [] => some []
  | c :: cs =>
    match vis[c]? with
    | none => none
    | some true => filterUnvisited vis cs
    | some false =>
      match filterUnvisited vis cs with
      | none => none
      | some l => some (c :: l)

theorem count_false_set_true (v : List Bool) (i : ℕ)
    (h : v[i]? = some false) :
    (v.set i true).count false < v.count false := by
  induction v generalizing i with
  | nil => simp at h
  | cons b bs ih =>
    cases i with
    | zero =>
      simp only [List.getElem?_cons_zero, Option.some.injEq] at h
      subst h
      simp [List.count_cons]
    | succ j =>
      have h' : bs[j]? = some false := by simpa using h
      have := ih j h'
      simp only [List.set_cons_succ, List.count_cons]
      cases b <;> simp <;> omega

/-- The BFS loop of `calculate_average_txs_per_depth`, returning the final
`depth_txs` accumulator in key-insertion order. The visited structure is the
`vec![false; nodes.len() + 1]` vector; indexing it out of bounds (`none`) is
the Rust panic. For each newly visited node at depth `d`, the count of
records with timestamp `d` is added to the accumulator entry of `d`. -/
def bfsTxsAux (nodes : List TransactionNode) (g : Graph)
    (queue : List (ℕ × ℕ)) (visited : List Bool)
    (entries : List (ℕ × ℕ)) : Option (List (ℕ × ℕ)) :=
  match queue with
  | [] => some entries
  | (node, d) :: rest =>
    match hv : visited[node]? with
    | none => none
    | some true => bfsTxsAux nodes g rest visited entries
    | some false =>
      match filterUnvisited (visited.set node true) (childrenOf g node) with
      | none => none
      | some fresh =>
        bfsTxsAux nodes g (rest ++ fresh.map (fun c => (c, d + 1)))
          (visited.set node true)
          (bumpEntry entries d (count_transactions_at_depth nodes d))
termination_by (visited.count false, queue.length)
decreasing_by
· apply Prod.Lex.right
  simp
· apply Prod.Lex.left
  exact count_false_set_true visited node hv

/-- Model of `calculate_average_txs_per_depth`. `iter` is the iteration order
`HashMap::values()` happens to use, an unspecified permutation of the entries;
the code drops the FIRST value of that order (`skip(1)`) and divides by
`depth_txs.len() - 1`. -/
def calculate_average_txs_per_depth (nodes : List TransactionNode) (g : Graph)
    (iter : List (ℕ × ℕ) → List (ℕ × ℕ)) : Option ℚ :=
  match bfsTxsAux nodes g [(1, 0)]
      (List.replicate (nodes.length + 1) false) [] with
  | none => none
  | some entries =>
    some
      (if 0 < (iter entries).length - 1 then
        ((((iter entries).map Prod.snd).drop 1).sum : ℚ) /
          (((iter entries).length - 1 : ℕ) : ℚ)
      else 0)

/-- Specification-side value (spec §4.4 step 3): sum of the accumulated totals
over all depth keys EXCEPT DEPTH 0, divided by (number of distinct depth keys
minus one). -/
def avgTxsPerDepthSpec (entries : List (ℕ × ℕ)) : ℚ :=
  if 1 < entries.length then
    (((entries.filter (fun e => e.1 ≠ 0)).map Prod.snd).sum : ℚ) /
      ((entries.length - 1 : ℕ) : ℚ)
  else 0

/-! ### Parser lemmas -/

theorem mapOption_eq_none_iff (f : α → Option β) (xs : List α) :
    mapOption f xs = none ↔ ∃ x ∈ xs, f x = none := by
  induction xs with
  | nil => simp [mapOption]
  | cons x rest ih =>
    cases hf : f x with
    | none => simp [mapOption, hf]
    | some y =>
      simp only [mapOption, hf, List.mem_cons]
      cases hm : mapOption f rest with
      | none =>
        have hex := ih.mp hm
        simp only [Option.map_none']
        constructor
        · intro _
          obtain ⟨a, ha, hfa⟩ := hex
          exact ⟨a, Or.inr ha, hfa⟩
        · intro _
          trivial
      | some ys =>
        simp only [Option.map_some']
        constructor
        · intro h
          exact absurd h (by simp)
        · rintro ⟨a, (rfl | ha), hfa⟩
          · rw [hf] at hfa
            exact absurd hfa (by simp)
          · have hnone : mapOption f rest = none := ih.mpr ⟨a, ha, hfa⟩
            rw [hm] at hnone
            exact absurd hnone (by simp)

theorem mapOption_eq_some_iff (f : α → Option β) (xs : List α) :
    ∀ ys : List β, mapOption f xs = some ys ↔
      List.Forall₂ (fun x y => f x = some y) xs ys := by
  induction xs with
  | nil =>
    intro ys
    simp only [mapOption, Option.some.injEq]
    constructor
    · rintro rfl
      exact List.Forall₂.nil
    · intro h
      cases h
      rfl
  | cons x rest ih =>
    intro ys
    cases hf : f x with
    | none =>
      simp only [mapOption, hf]
      constructor
      · intro h
        exact absurd h (by simp)
      · intro h
        cases h with
        | cons hxy _ =>
          rw [hf] at hxy
          exact absurd hxy (by simp)
    | some y =>
      simp only [mapOption, hf]
      cases hm : mapOption f rest with
      | none =>
        simp only [Option.map_none']
        constructor
        · intro h
          exact absurd h (by simp)
        · intro h
          cases h with
          | cons hxy htail =>
            have := (ih _).mpr htail
            rw [hm] at this
            exact absurd this (by simp)
      | some zs =>
        simp only [Option.map_some', Option.some.injEq]
        constructor
        · rintro rfl
          exact List.Forall₂.cons hf ((ih zs).mp hm)
        · intro h
          cases h with
          | cons hxy htail =>
            have h1 := (ih _).mpr htail
            rw [hm] at h1
            simp only [Option.some.injEq] at h1
            rw [hf] at hxy
            simp only [Option.some.injEq] at hxy
            rw [hxy, h1]

theorem parseLine_eq_none_iff (l : String) :
    parseLine l = none ↔
      ((∃ t ∈ splitWhitespace l, parseUsize t = none) ∨
        ∃ parts, mapOption parseUsize (splitWhitespace l) = some parts ∧
          parts.length ≠ 3) := by
  cases hm : mapOption parseUsize (splitWhitespace l) with
  | none =>
    simp only [parseLine, hm]
    constructor
    · intro _
      exact Or.inl ((mapOption_eq_none_iff _ _).mp hm)
    · intro _
      trivial
  | some parts =>
    have hnofail : ¬ ∃ t ∈ splitWhitespace l, parseUsize t = none := by
      intro hex
      have hn := (mapOption_eq_none_iff parseUsize (splitWhitespace l)).mpr hex
      rw [hm] at hn
      exact absurd hn (by simp)
    simp only [parseLine, hm]
    constructor
    · intro h
      right
      refine ⟨parts, rfl, ?_⟩
      intro hlen
      obtain ⟨a, b, c, rfl⟩ := List.length_eq_three.mp hlen
      simp at h
    · rintro (hex | ⟨parts2, hp2, hlen⟩)
      · exact absurd hex hnofail
      · rw [Option.some.injEq] at hp2
        subst hp2
        rcases parts with _ | ⟨a, _ | ⟨b, _ | ⟨c, _ | ⟨d, tl⟩⟩⟩⟩ <;>
          simp_all

/-! ### Claims -/

/-- C1: the claim says the average-transactions-per-depth result equals the
sum of the accumulated per-depth totals over all depth keys except depth 0,
divided by (distinct depth keys − 1), regardless of map iteration order. The
code instead drops the FIRST value of the `HashMap`'s unspecified iteration
order (`values().skip(1)`), which need not be the depth-0 entry: on the three
records `(0,0,0), (1,0,1), (1,0,1)` the accumulator is `{0 ↦ 1, 1 ↦ 4}`, and
under the iteration order `[(1,4), (0,1)]` (a permutation of those entries)
the code yields `1`, while the spec's value (excluding depth 0) is `4`. -/
theorem C1_txs_skip_arbitrary_entry :
    bfsTxsAux [⟨0, 0, 0⟩, ⟨1, 0, 1⟩, ⟨1, 0, 1⟩]
        (build_graph [⟨0, 0, 0⟩, ⟨1, 0, 1⟩, ⟨1, 0, 1⟩]) [(1, 0)]
        (List.replicate 4 false) [] = some [(0, 1), (1, 4)] ∧
    List.Perm [(1, 4), (0, 1)] [(0, 1), (1, 4)] ∧
    calculate_average_txs_per_depth [⟨0, 0, 0⟩, ⟨1, 0, 1⟩, ⟨1, 0, 1⟩]
        (build_graph [⟨0, 0, 0⟩, ⟨1, 0, 1⟩, ⟨1, 0, 1⟩])
        (fun _ => [(1, 4), (0, 1)]) = some 1 ∧
    avgTxsPerDepthSpec [(0, 1), (1, 4)] = 4 ∧
    (1 : ℚ) ≠ 4 := by
  refine ⟨?_, by decide, ?_, ?_, by norm_num⟩
  · simp [bfsTxsAux, List.replicate, childrenOf, getG, build_graph,
      buildGraphAux, pushChild, List.find?, filterUnvisited, bumpEntry,
      count_transactions_at_depth, List.filter, List.getElem?_cons_zero,
      List.getElem?_cons_succ, List.getElem?_nil]
    rfl
  · simp [calculate_average_txs_per_depth, bfsTxsAux, List.replicate,
      childrenOf, getG, build_graph, buildGraphAux, pushChild, List.find?,
      filterUnvisited, bumpEntry, count_transactions_at_depth, List.filter,
      List.getElem?_cons_zero, List.getElem?_cons_succ, List.getElem?_nil]
    rfl
  · simp [avgTxsPerDepthSpec, List.filter]

/-- C2: the claim says `calculate_average_txs_per_depth` returns `0.0` on an
empty record sequence. In the code the visited vector is
`vec![false; nodes.len() + 1]`, of length 1 for zero records, and the BFS
immediately evaluates `visited[1]`: index out of bounds, a panic (`none`),
whatever iteration order the accumulator map would have used. -/
theorem C2_txs_empty_input_panics
    (iter : List (ℕ × ℕ) → List (ℕ × ℕ)) :
    calculate_average_txs_per_depth [] (build_graph []) iter = none := by
  simp [calculate_average_txs_per_depth, bfsTxsAux, List.replicate,
    List.getElem?_cons_zero, List.getElem?_cons_succ, List.getElem?_nil]
  rfl

/-- C3 (counterexample): the claim that `calculate_average_in_references`
returns a defined numeric value for zero records is false: the result is the
`NaN` of `0.0 / 0.0`, modelled as `some none` — no rational value at all. -/
theorem C3_in_refs_empty_not_defined :
    calculate_average_in_references [] (build_graph []) = some none ∧
    ¬ ∃ q : ℚ, calculate_average_in_references [] (build_graph []) =
      some (some q) := by
  refine ⟨rfl, ?_⟩
  rintro ⟨q, hq⟩
  simp [calculate_average_in_references, inRefCounts, inRefLoop] at hq

/-- C3 (amended): with zero records `calculate_average_in_references` divides
`0.0` by `0.0` and returns `NaN` (modelled `some none`): no panic, but an
undefined numeric value rather than a defined one. -/
theorem C3_in_refs_empty_nan :
    calculate_average_in_references [] (build_graph []) = some none := rfl

/-- C6: `build_graph` is a deterministic total function whose child list for
every key `p` is exactly the specification's description: scanning records in
input order, a record at 1-based position `i` with `left_parent = p > 0`
appends `i`, then one with `right_parent = p > 0` appends `i` — so the left
edge precedes the right edge within one record and lists follow input order,
and equal inputs give equal mappings. -/
theorem C6_build_graph_children_spec (nodes : List TransactionNode) (p : ℕ) :
    childrenOf (build_graph nodes) p = childListSpec nodes 0 p :=
  childrenOf_build_graph nodes p

/-- C7: appending an orphan record (both parents 0, id `nodes.length + 1 ≠ 1`)
adds no edges, so the orphan is unreachable from the root and
`calculate_average_depth` is unchanged. -/
theorem C7_orphan_preserves_average_depth (nodes : List TransactionNode)
    (orphan : TransactionNode) (hl : orphan.left = 0) (hr : orphan.right = 0)
    (hne : nodes ≠ []) :
    calculate_average_depth (build_graph (nodes ++ [orphan])) =
      calculate_average_depth (build_graph nodes) ∧
    ¬ Reachable (build_graph (nodes ++ [orphan])) (nodes.length + 1) := by
  have hg := build_graph_append_orphan nodes orphan hl hr
  constructor
  · rw [hg]
  · rw [hg]
    exact not_reachable_orphan nodes hne

/-- C7 witness: the concrete two-record instance, root `(0,0,0)` plus orphan
`(0,0,5)`. -/
theorem C7_orphan_witness :
    calculate_average_depth
        (build_graph ([⟨0, 0, 0⟩] ++ [⟨0, 0, 5⟩])) =
      calculate_average_depth (build_graph [⟨0, 0, 0⟩]) ∧
    ¬ Reachable (build_graph ([⟨0, 0, 0⟩] ++ [⟨0, 0, 5⟩]))
        (([⟨0, 0, 0⟩] : List TransactionNode).length + 1) :=
  C7_orphan_preserves_average_depth [⟨0, 0, 0⟩] ⟨0, 0, 5⟩ rfl rfl
    (by simp)

/-- C9: the BFS of `calculate_average_depth` terminates on every adjacency
mapping: the visited set lets each node be processed at most once (the
processed node list has no duplicates and is bounded by the number of
candidate nodes), and on the cyclic input built from records `(2,0,0),
(1,0,0)` — whose graph is `1 → 2 → 1` — it returns the finite value `1/2`
instead of looping or erroring. -/
theorem C9_bfs_terminates_bounded :
    (∀ g : Graph, ((bfsVisited g).map Prod.fst).Nodup ∧
      (bfsVisited g).length ≤ (candSet g).card) ∧
    bfsVisited (build_graph [⟨2, 0, 0⟩, ⟨1, 0, 0⟩]) = [(1, 0), (2, 1)] ∧
    calculate_average_depth (build_graph [⟨2, 0, 0⟩, ⟨1, 0, 0⟩]) = 1 / 2 := by
  have hb : bfsVisited (build_graph [⟨2, 0, 0⟩, ⟨1, 0, 0⟩]) =
      [(1, 0), (2, 1)] := by
    have hg : build_graph [⟨2, 0, 0⟩, ⟨1, 0, 0⟩] = [(2, [1]), (1, [2])] := rfl
    rw [hg]
    simp [bfsVisited, bfsAux, childrenOf, getG, List.find?]
  refine ⟨?_, hb, ?_⟩
  · intro g
    refine ⟨bfs_nodup g [(1, 0)] ∅, ?_⟩
    have hsub : ∀ x ∈ (bfsVisited g).map Prod.fst, x ∈ candSet g := by
      intro x hx
      obtain ⟨p, hp, rfl⟩ := List.mem_map.mp hx
      refine bfs_in_candSet g [(1, 0)] ∅ ?_ p hp
      intro y hy
      rcases List.mem_cons.mp hy with rfl | hy'
      · exact Finset.mem_insert_self 1 _
      · simp at hy'
    calc (bfsVisited g).length
        = ((bfsVisited g).map Prod.fst).length := (List.length_map _ _).symm
      _ = ((bfsVisited g).map Prod.fst).toFinset.card :=
          (List.toFinset_card_of_nodup (bfs_nodup g [(1, 0)] ∅)).symm
      _ ≤ (candSet g).card :=
          Finset.card_le_card (fun x hx => hsub x (List.mem_toFinset.mp hx))
  · rw [calculate_average_depth, hb]
    norm_num

/-- C10: on a graph built by `build_graph` from `n` records, every stored
child id lies in `1..=n`, so in `calculate_average_in_references` the counter
index `referencing_node - 1` neither underflows nor leaves the array of size
`n`: the whole counting pass succeeds. -/
theorem C10_child_ids_in_bounds (nodes : List TransactionNode) (p c : ℕ)
    (h : c ∈ childrenOf (build_graph nodes) p) :
    (1 ≤ c ∧ c ≤ nodes.length) ∧
      ∃ counts, inRefCounts (build_graph nodes) nodes.length = some counts := by
  refine ⟨childrenOf_build_graph_bounds nodes p c h, ?_⟩
  obtain ⟨counts, hc, _, _⟩ := inRefCounts_build_graph nodes
  exact ⟨counts, hc⟩

/-- C10 witness: records `(0,0,0), (1,0,0)`; node 2 is a child of node 1 and
indeed `1 ≤ 2 ≤ 2`, with the counting pass succeeding. -/
theorem C10_child_ids_witness :
    (1 ≤ 2 ∧ 2 ≤ ([⟨0, 0, 0⟩, ⟨1, 0, 0⟩] : List TransactionNode).length) ∧
      ∃ counts, inRefCounts (build_graph [⟨0, 0, 0⟩, ⟨1, 0, 0⟩])
        ([⟨0, 0, 0⟩, ⟨1, 0, 0⟩] : List TransactionNode).length = some counts :=
  C10_child_ids_in_bounds [⟨0, 0, 0⟩, ⟨1, 0, 0⟩] 1 2 (by decide)

/-- C4: for any non-empty record sequence with the graph built from it,
`calculate_average_in_references` returns (number of adjacency edges whose
source id is in `1..=n`) divided by `n`; on the chain where record `i+1` has
`left_parent = i` and `right_parent = 0` the value is `(n - 1) / n`. -/
theorem C4_average_in_references_formula (nodes : List TransactionNode)
    (hne : nodes ≠ []) (n : ℕ) (hn : 0 < n) :
    calculate_average_in_references nodes (build_graph nodes) =
      some (some ((totalEdges (build_graph nodes) nodes.length : ℚ) /
        (nodes.length : ℚ))) ∧
    calculate_average_in_references (chainNodes n)
        (build_graph (chainNodes n)) =
      some (some (((n : ℚ) - 1) / (n : ℚ))) := by
  constructor
  · exact in_refs_formula nodes hne
  · have hcast : ((n - 1 : ℕ) : ℚ) = (n : ℚ) - 1 := by
      rw [Nat.cast_sub hn, Nat.cast_one]
    rw [in_refs_formula (chainNodes n) (chainNodes_ne_nil n hn),
      chainNodes_length, chain_total_edges, hcast]

/-- C4 witness: the two-record graph `(0,0,0), (1,0,0)` and the chain of
length 3, where the average in-reference count is `(3 - 1) / 3`. -/
theorem C4_average_in_references_witness :
    calculate_average_in_references [⟨0, 0, 0⟩, ⟨1, 0, 0⟩]
        (build_graph [⟨0, 0, 0⟩, ⟨1, 0, 0⟩]) =
      some (some ((totalEdges (build_graph [⟨0, 0, 0⟩, ⟨1, 0, 0⟩])
        ([⟨0, 0, 0⟩, ⟨1, 0, 0⟩] : List TransactionNode).length : ℚ) /
        (([⟨0, 0, 0⟩, ⟨1, 0, 0⟩] : List TransactionNode).length : ℚ))) ∧
    calculate_average_in_references (chainNodes 3)
        (build_graph (chainNodes 3)) =
      some (some (((3 : ℚ) - 1) / (3 : ℚ))) :=
  C4_average_in_references_formula [⟨0, 0, 0⟩, ⟨1, 0, 0⟩] (by simp) 3
    (by norm_num)

/-- C5: `calculate_average_depth` returns the mean of the BFS depths over
exactly the nodes reachable from id 1, each counted once (the processed list
has no duplicate nodes and its node set is precisely the reachable set), with
the root processed first at depth 0; a graph with no edges yields average 0
with exactly one counted node, and an empty record set also yields 0. -/
theorem C5_average_depth_mean_reachable (nodes : List TransactionNode) :
    ((bfsVisited (build_graph nodes)).map Prod.fst).Nodup ∧
    (∀ v, v ∈ (bfsVisited (build_graph nodes)).map Prod.fst ↔
      Reachable (build_graph nodes) v) ∧
    (∃ rest, bfsVisited (build_graph nodes) = (1, 0) :: rest) ∧
    calculate_average_depth (build_graph nodes) =
      (((bfsVisited (build_graph nodes)).map Prod.snd).sum : ℚ) /
        ((bfsVisited (build_graph nodes)).length : ℚ) ∧
    ((∀ p, childrenOf (build_graph nodes) p = []) →
      calculate_average_depth (build_graph nodes) = 0 ∧
        (bfsVisited (build_graph nodes)).length = 1) ∧
    (nodes = [] → calculate_average_depth (build_graph nodes) = 0) := by
  refine ⟨bfs_nodup _ _ _, ?_, bfsVisited_eq_cons _, ?_,
    avg_depth_of_no_edges _, ?_⟩
  · intro v
    exact ⟨reachable_of_processed _ v, processed_of_reachable _ v⟩
  · obtain ⟨rest, hr⟩ := bfsVisited_eq_cons (build_graph nodes)
    have hpos : 0 < (bfsVisited (build_graph nodes)).length := by
      rw [hr]
      simp
    rw [calculate_average_depth, if_pos hpos]
  · rintro rfl
    exact (avg_depth_of_no_edges (build_graph [])
      (fun p => by rw [build_graph_nil]; exact childrenOf_nil p)).1

/-- C8: parsing fails (`none`, the model of the fatal panic, with no record
sequence produced) exactly when some data line has a token that fails
non-negative-integer parsing or does not split into exactly three parsed
tokens; and it succeeds exactly when every data line parses, returning the
records in input order (`Forall₂` pairs line `k` with record `k`). -/
theorem C8_parse_database_spec (lines : List String) :
    (parse_database lines = none ↔
      ∃ l ∈ lines.drop 1, parseLine l = none) ∧
    (∀ l : String, parseLine l = none ↔
      ((∃ t ∈ splitWhitespace l, parseUsize t = none) ∨
        ∃ parts, mapOption parseUsize (splitWhitespace l) = some parts ∧
          parts.length ≠ 3)) ∧
    (∀ recs : List TransactionNode, parse_database lines = some recs ↔
      List.Forall₂ (fun l r => parseLine l = some r) (lines.drop 1) recs) :=
  ⟨mapOption_eq_none_iff parseLine (lines.drop 1),
    fun l => parseLine_eq_none_iff l,
    fun recs => mapOption_eq_some_iff parseLine (lines.drop 1) recs⟩
